import Mathlib

/-!
Verification of the seqan3 join_with view (a C++23 std::views::join_with
implementation).  The outer range is modelled as a list of lists, the pattern
as a list, and the iterator of the view as a pair of an outer index together
with the tagged union held in the member inner_it_ (index 0 holds a pattern
iterator, index 1 holds an inner iterator).  Loops of the source (satisfy and
the backward-skip loop of the decrement operator) are modelled with explicit
fuel so that every definition stays executable.
-/

namespace SeqanJoinWith

/-- Model of the member inner_it_ of the join_with iterator, a
std::variant with alternative 0 holding a pattern iterator and
alternative 1 holding an inner iterator.  Iterators into lists are
modelled as natural number indices; a value-initialized pattern iterator
(the result of emplace with no arguments) is modelled as index 0. -/
inductive Phase where
  | inPattern (p : Nat)
  | inInner (i : Nat)
deriving DecidableEq, Repr

/-- True when the variant holds the inner-iterator alternative. -/
def Phase.isInnerSide : Phase → Bool
  | Phase.inInner _ => true
  | Phase.inPattern _ => false

/-- Model of join_with_view::iterator: the outer iterator outer_it_ as an
index into the outer list, and the variant inner_it_. -/
structure JoinIter where
  outer : Nat
  phase : Phase
deriving DecidableEq, Repr

/-- Concatenation of a list of lists with the pattern put in front of every
element: tailJoin P [y1, ..., yk] = P ++ y1 ++ P ++ y2 ++ ... ++ P ++ yk. -/
def tailJoin (P : List α) : List (List α) → List α
  | [] => []
  | y :: ys => P ++ y ++ tailJoin P ys

/-- Expected flattening result stated by the specification:
concatenate(O[0], P, O[1], P, ..., P, O[n-1]). -/
def joinWithSpec (P : List α) : List (List α) → List α
  | [] => []
  | x :: xs => x ++ tailJoin P xs

/-- Fuel-based model of join_with_view::iterator::satisfy (the while(true)
loop).  O is the outer range, P the pattern, g the compile-time flag
ref_is_glvalue.  Each recursive call is one loop iteration; none means the
fuel ran out.  When the pattern iterator equals the pattern end, the inner
range for the current outer position is obtained and the variant switches to
its begin; when the inner iterator equals the inner end, the outer iterator
is incremented, and either the end of the outer range is reached (in the
glvalue case the variant is re-emplaced with a value-initialized pattern
iterator, alternative 0) or the variant switches to the begin of the
pattern. -/
def satisfyF (O : List (List α)) (P : List α) (g : Bool) : Nat → JoinIter → Option JoinIter
  | 0, _ => none
  | n + 1, st =>
    match st.phase with
    | Phase.inPattern p =>
      if p = P.length then satisfyF O P g n ⟨st.outer, Phase.inInner 0⟩
      else some st
    | Phase.inInner i =>
      if i = (O.getD st.outer []).length then
        if st.outer + 1 = O.length then
          some ⟨st.outer + 1, if g then Phase.inPattern 0 else Phase.inInner i⟩
        else satisfyF O P g n ⟨st.outer + 1, Phase.inPattern 0⟩
      else some st

/-- Total version of satisfy, run with enough fuel for every well-formed
state (the loop needs at most two iterations per remaining outer position). -/
def satisfy (O : List (List α)) (P : List α) (g : Bool) (st : JoinIter) : JoinIter :=
  (satisfyF O P g (2 * O.length + 2) st).getD st

/-- Model of the iterator constructor taking the parent and an outer
iterator: when the outer iterator is not at the outer end, the variant is
emplaced with the begin of the inner range at that position and satisfy
runs; otherwise the variant keeps its default-constructed value (alternative
0 with a value-initialized pattern iterator, modelled as index 0). -/
def mkIter (O : List (List α)) (P : List α) (g : Bool) (o : Nat) : JoinIter :=
  if o = O.length then ⟨o, Phase.inPattern 0⟩
  else satisfy O P g ⟨o, Phase.inInner 0⟩

/-- The visit in operator++ that increments whichever iterator the variant
currently holds. -/
def incPhase (st : JoinIter) : JoinIter :=
  ⟨st.outer,
   match st.phase with
   | Phase.inPattern p => Phase.inPattern (p + 1)
   | Phase.inInner i => Phase.inInner (i + 1)⟩

/-- Model of operator++: increment the active iterator, then satisfy. -/
def next (O : List (List α)) (P : List α) (g : Bool) (st : JoinIter) : JoinIter :=
  satisfy O P g (incPhase st)

/-- Model of operator*: read through whichever iterator the variant holds;
none models an out-of-range dereference (undefined behavior in the source). -/
def deref (O : List (List α)) (P : List α) (st : JoinIter) : Option α :=
  match st.phase with
  | Phase.inPattern p => P[p]?
  | Phase.inInner i => (O.getD st.outer [])[i]?

/-- Fuel-based full forward traversal: read and step until the outer
iterator reaches the outer end. -/
def traverseF (O : List (List α)) (P : List α) (g : Bool) : Nat → JoinIter → List α
  | 0, _ => []
  | n + 1, st =>
    if st.outer = O.length then []
    else
      match deref O P st with
      | none => []
      | some a => a :: traverseF O P g n (next O P g st)

/-- Full forward traversal of the view from begin, with enough fuel to
reach the end. -/
def joinTraversal (O : List (List α)) (P : List α) (g : Bool) : List α :=
  traverseF O P g ((tailJoin P O).length + 1) (mkIter O P g 0)

/-- First statement of operator--: when the outer iterator is at the outer
end, decrement it and emplace the variant with the end of the inner range at
the new position. -/
def preStep (O : List (List α)) (st : JoinIter) : JoinIter :=
  if st.outer = O.length then
    ⟨st.outer - 1, Phase.inInner (O.getD (st.outer - 1) []).length⟩
  else st

/-- Fuel-based model of the backward-skip loop of operator--: while the
pattern iterator is at the pattern begin, decrement the outer iterator and
switch to the end of that inner range; while the inner iterator is at the
inner begin, switch to the end of the pattern. -/
def prevLoopF (O : List (List α)) (P : List α) : Nat → JoinIter → Option JoinIter
  | 0, _ => none
  | n + 1, st =>
    match st.phase with
    | Phase.inPattern p =>
      if p = 0 then
        prevLoopF O P n ⟨st.outer - 1, Phase.inInner (O.getD (st.outer - 1) []).length⟩
      else some st
    | Phase.inInner i =>
      if i = 0 then prevLoopF O P n ⟨st.outer, Phase.inPattern P.length⟩
      else some st

/-- The final visit of operator-- that decrements whichever iterator the
variant holds. -/
def decPhase (st : JoinIter) : JoinIter :=
  ⟨st.outer,
   match st.phase with
   | Phase.inPattern p => Phase.inPattern (p - 1)
   | Phase.inInner i => Phase.inInner (i - 1)⟩

/-- Model of operator--: the outer-end pre-step, the backward-skip loop, and
the final decrement. -/
def prev (O : List (List α)) (P : List α) (st : JoinIter) : JoinIter :=
  decPhase ((prevLoopF O P (2 * O.length + 2) (preStep O st)).getD st)

/-- The iterator obtained from begin() after k forward steps. -/
def fwdIter (O : List (List α)) (P : List α) (g : Bool) : Nat → JoinIter
  | 0 => mkIter O P g 0
  | k + 1 => next O P g (fwdIter O P g k)

/-- Elements read while stepping backward k times: after each backward step
the new position is dereferenced. -/
def backListF (O : List (List α)) (P : List α) : Nat → JoinIter → List (Option α)
  | 0, _ => []
  | k + 1, st =>
    deref O P (prev O P st) :: backListF O P k (prev O P st)

/-- Model of join_with_view::sentinel: it captures only the end of the
outer range at construction. -/
structure Sentinel where
  endPos : Nat
deriving DecidableEq, Repr

/-- Model of the sentinel constructor taking the parent view. -/
def mkSentinel (O : List (List α)) : Sentinel :=
  ⟨O.length⟩

/-- Model of operator== between an iterator and a sentinel: it compares
only the outer iterator with the captured outer end. -/
def sentinelEq (st : JoinIter) (s : Sentinel) : Bool :=
  st.outer == s.endPos

/-- Model of operator== between two iterators: outer iterators equal and
variants equal (same alternative and equal held iterators). -/
def iterEq (x y : JoinIter) : Bool :=
  decide (x.outer = y.outer) && decide (x.phase = y.phase)

/-- Model of the requires clause of operator== between two iterators:
ref_is_glvalue together with equality comparability of the outer and inner
iterator types. -/
def iterEqDefined (refIsGlvalue eqOuter eqInner : Bool) : Bool :=
  refIsGlvalue && eqOuter && eqInner

/-- Traversal capability of the composed iterator. -/
inductive Cap where
  | input
  | fwd
  | bidi
deriving DecidableEq, Repr

/-- Compile-time traversal properties of one of the three constituent
ranges. -/
structure RangeTraits where
  fwd : Bool
  bidi : Bool
  common : Bool
deriving DecidableEq, Repr

/-- Model of the iterator_concept cascade of the source: input when the
inner range is synthesized by value; bidirectional when the base is
bidirectional and both inner and pattern are bidirectional common ranges;
forward when base and inner are forward ranges (the pattern is a forward
range by the constraints of the view); otherwise input. -/
def iteratorConcept (refIsGlvalue : Bool) (outer inner pat : RangeTraits) : Cap :=
  if !refIsGlvalue then Cap.input
  else if outer.bidi && (inner.bidi && inner.common) && (pat.bidi && pat.common) then Cap.bidi
  else if outer.fwd && inner.fwd then Cap.fwd
  else Cap.input

/-- Capability cascade exactly as worded by the specification: value
synthesis forces input; else bidirectional when outer, inner and pattern are
bidirectional and inner and pattern are common; else forward when outer,
inner and pattern are all forward; else input. -/
def iteratorConceptSpec (refIsGlvalue : Bool) (outer inner pat : RangeTraits) : Cap :=
  if !refIsGlvalue then Cap.input
  else if outer.bidi && inner.bidi && pat.bidi && inner.common && pat.common then Cap.bidi
  else if outer.fwd && inner.fwd && pat.fwd then Cap.fwd
  else Cap.input

/-- Model of the view data: the outer range and the pattern held by
join_with_view. -/
structure JoinWithView (α : Type u) where
  base : List (List α)
  pat : List α
deriving DecidableEq, Repr

/-- Model of the (V, Pattern) constructor. -/
def mkJoinWithView (base : List (List α)) (pat : List α) : JoinWithView α :=
  ⟨base, pat⟩

/-- Model of std::ranges::single_view of one element. -/
def singleView (e : α) : List α :=
  [e]

/-- Model of the constructor taking the outer range and one separator
element: the element is wrapped by views::single into the pattern. -/
def mkJoinWithViewSingle (base : List (List α)) (e : α) : JoinWithView α :=
  ⟨base, singleView e⟩

/-- Forward traversal of a view value. -/
def viewTraversal (v : JoinWithView α) (g : Bool) : List α :=
  joinTraversal v.base v.pat g

/-- Occurrence of the pattern P at position i of l, as a contiguous
block. -/
def occursAt [DecidableEq α] (P l : List α) (i : Nat) : Prop :=
  (l.drop i).take P.length = P

instance [DecidableEq α] (P l : List α) (i : Nat) : Decidable (occursAt P l i) := by
  unfold occursAt; infer_instance

/-- Boolean check that P occurs nowhere in l as a contiguous block. -/
def noOccIn [DecidableEq α] (P l : List α) : Bool :=
  (List.range (l.length + 1)).all fun i => !(decide (occursAt P l i))

/-- Leftmost occurrence position of P in l, if any. -/
def findOcc [DecidableEq α] (P : List α) : List α → Option Nat
  | [] => if P = [] then some 0 else none
  | a :: l => if (a :: l).take P.length = P then some 0
              else (findOcc P l).map fun i => i + 1

/-- Fuel-based split of l on every leftmost occurrence of the separator
P. -/
def splitOnSeqF [DecidableEq α] (P : List α) : Nat → List α → List (List α)
  | 0, l => [l]
  | n + 1, l =>
    match findOcc P l with
    | none => [l]
    | some i => l.take i :: splitOnSeqF P n (l.drop (i + P.length))

/-- Split of l on the separator P, modelled from the spec: the round-trip
property speaks of splitting the flattened result on P; no split operation
exists in the excerpted source, so the usual leftmost-occurrence split is
used. -/
def splitOnSeq [DecidableEq α] (P l : List α) : List (List α) :=
  splitOnSeqF P (l.length + 1) l

/-- Positions inside joinWithSpec P O at which the separator copies were
inserted. -/
def sepPositions (P : List α) : List (List α) → List Nat
  | [] => []
  | [_] => []
  | x :: y :: ys =>
    x.length :: (sepPositions P (y :: ys)).map fun i => x.length + P.length + i

/-- Bound on the iterator held by the variant: at most the end of the range
it points into.  States violating this never arise from the public
operations. -/
def WFPhase (O : List (List α)) (P : List α) (st : JoinIter) : Prop :=
  match st.phase with
  | Phase.inPattern p => p ≤ P.length
  | Phase.inInner i => i ≤ (O.getD st.outer []).length

/-- Invariant established by satisfy: the outer iterator does not pass the
outer end, and at a non-terminal position the active iterator is strictly
before the end of its range, so dereference reads a valid element. -/
def InvIter (O : List (List α)) (P : List α) (st : JoinIter) : Prop :=
  st.outer ≤ O.length ∧
  (st.outer < O.length →
    match st.phase with
    | Phase.inPattern p => p < P.length
    | Phase.inInner i => i < (O.getD st.outer []).length)

/-- Elements still to be produced from a given iterator state. -/
def rem (O : List (List α)) (P : List α) (st : JoinIter) : List α :=
  if st.outer < O.length then
    match st.phase with
    | Phase.inPattern p =>
      P.drop p ++ (O.getD st.outer []) ++ tailJoin P (O.drop (st.outer + 1))
    | Phase.inInner i =>
      (O.getD st.outer []).drop i ++ tailJoin P (O.drop (st.outer + 1))
  else []

/-- Fuel needed by satisfy from a given state. -/
def fuelNeed (O : List (List α)) (st : JoinIter) : Nat :=
  match st.phase with
  | Phase.inPattern _ => 2 * (O.length - st.outer)
  | Phase.inInner _ => 2 * (O.length - st.outer) - 1

/-- State of satisfy just after discovering that the inner range at outer
position o is exhausted. -/
def exhState (O : List (List α)) (o : Nat) : JoinIter :=
  ⟨o, Phase.inInner (O.getD o []).length⟩

/-- Unfold lemma: satisfy stops when the pattern iterator is not at the
pattern end. -/
theorem satisfyF_pat_stop {P : List α} {p : Nat} (O : List (List α)) (g : Bool)
    (n o : Nat) (h : p ≠ P.length) :
    satisfyF O P g (n + 1) ⟨o, Phase.inPattern p⟩ = some ⟨o, Phase.inPattern p⟩ := by
  simp [satisfyF, h]

/-- Unfold lemma: satisfy switches to the begin of the inner range when the
pattern iterator is at the pattern end. -/
theorem satisfyF_pat_go (O : List (List α)) (P : List α) (g : Bool) (n o : Nat) :
    satisfyF O P g (n + 1) ⟨o, Phase.inPattern P.length⟩ =
      satisfyF O P g n ⟨o, Phase.inInner 0⟩ := by
  simp [satisfyF]

/-- Unfold lemma: satisfy stops when the inner iterator is not at the inner
end. -/
theorem satisfyF_inn_stop {O : List (List α)} {i o : Nat} (P : List α) (g : Bool)
    (n : Nat) (h : i ≠ (O.getD o []).length) :
    satisfyF O P g (n + 1) ⟨o, Phase.inInner i⟩ = some ⟨o, Phase.inInner i⟩ := by
  simp only [satisfyF]
  rw [if_neg h]

/-- Unfold lemma: when the inner range is exhausted and incrementing the
outer iterator reaches the outer end, satisfy stops in the terminal state. -/
theorem satisfyF_inn_term {O : List (List α)} {o : Nat} (P : List α) (g : Bool)
    (n : Nat) (h : o + 1 = O.length) :
    satisfyF O P g (n + 1) ⟨o, Phase.inInner (O.getD o []).length⟩ =
      some ⟨o + 1, if g then Phase.inPattern 0 else Phase.inInner (O.getD o []).length⟩ := by
  simp [satisfyF, h]

/-- Unfold lemma: when the inner range is exhausted and the outer end is not
reached, satisfy switches to the begin of the pattern at the next outer
position. -/
theorem satisfyF_inn_go {O : List (List α)} {o : Nat} (P : List α) (g : Bool)
    (n : Nat) (h : o + 1 ≠ O.length) :
    satisfyF O P g (n + 1) ⟨o, Phase.inInner (O.getD o []).length⟩ =
      satisfyF O P g n ⟨o + 1, Phase.inPattern 0⟩ := by
  simp [satisfyF, h]

/-- More fuel never changes a result satisfy already produced. -/
theorem satisfyF_mono {O : List (List α)} {P : List α} {g : Bool} :
    ∀ {n m : Nat} {st r : JoinIter}, satisfyF O P g n st = some r → n ≤ m →
      satisfyF O P g m st = some r := by
  intro n
  induction n with
  | zero => intro m st r h _; simp [satisfyF] at h
  | succ k ih =>
    intro m st r h hle
    obtain ⟨m', rfl⟩ : ∃ m', m = m' + 1 := ⟨m - 1, by omega⟩
    obtain ⟨o, ph⟩ := st
    cases ph with
    | inPattern p =>
      by_cases hp : p = P.length
      · subst hp
        rw [satisfyF_pat_go] at h
        rw [satisfyF_pat_go]
        exact ih h (by omega)
      · rw [satisfyF_pat_stop O g k o hp] at h
        rw [satisfyF_pat_stop O g m' o hp]
        exact h
    | inInner i =>
      by_cases hi : i = (O.getD o []).length
      · subst hi
        by_cases ho : o + 1 = O.length
        · rw [satisfyF_inn_term P g k ho] at h
          rw [satisfyF_inn_term P g m' ho]
          exact h
        · rw [satisfyF_inn_go P g k ho] at h
          rw [satisfyF_inn_go P g m' ho]
          exact ih h (by omega)
      · rw [satisfyF_inn_stop P g k hi] at h
        rw [satisfyF_inn_stop P g m' hi]
        exact h

/-- Unfold lemma for rem at a terminal state. -/
theorem rem_term (O : List (List α)) (P : List α) (st : JoinIter)
    (h : ¬ st.outer < O.length) : rem O P st = [] := by
  simp [rem, h]

/-- Unfold lemma for rem in the pattern phase. -/
theorem rem_pat {O : List (List α)} {o : Nat} (P : List α) (p : Nat)
    (h : o < O.length) :
    rem O P ⟨o, Phase.inPattern p⟩ =
      P.drop p ++ (O.getD o []) ++ tailJoin P (O.drop (o + 1)) := by
  simp [rem, h]

/-- Unfold lemma for rem in the inner phase. -/
theorem rem_inn {O : List (List α)} {o : Nat} (P : List α) (i : Nat)
    (h : o < O.length) :
    rem O P ⟨o, Phase.inInner i⟩ =
      (O.getD o []).drop i ++ tailJoin P (O.drop (o + 1)) := by
  simp [rem, h]

/-- Dropping the outer list at a non-terminal position exposes the inner
range at that position in front of the rest. -/
theorem drop_outer_cons {O : List (List α)} {o : Nat} (h : o < O.length) :
    O.drop o = (O.getD o []) :: O.drop (o + 1) := by
  rw [List.drop_eq_getElem_cons h, List.getD_eq_getElem _ _ h]

/-- Projection of the first field of an explicitly built iterator state. -/
@[simp] theorem JoinIter.outer_mk (o : Nat) (ph : Phase) :
    (⟨o, ph⟩ : JoinIter).outer = o := rfl

/-- Projection of the second field of an explicitly built iterator state. -/
@[simp] theorem JoinIter.phase_mk (o : Nat) (ph : Phase) :
    (⟨o, ph⟩ : JoinIter).phase = ph := rfl

/-- Unfold lemma for the invariant in the pattern phase. -/
theorem invIter_pat {O : List (List α)} {P : List α} {o p : Nat} :
    InvIter O P ⟨o, Phase.inPattern p⟩ ↔
      o ≤ O.length ∧ (o < O.length → p < P.length) := Iff.rfl

/-- Unfold lemma for the invariant in the inner phase. -/
theorem invIter_inn {O : List (List α)} {P : List α} {o i : Nat} :
    InvIter O P ⟨o, Phase.inInner i⟩ ↔
      o ≤ O.length ∧ (o < O.length → i < (O.getD o []).length) := Iff.rfl

/-- Core behavior of satisfy: with enough fuel it returns a state that
satisfies the invariant, produces the same remaining element sequence, and,
in the glvalue case, lands in the canonical terminal representation whenever
it reaches the outer end. -/
theorem satisfyF_spec (O : List (List α)) (P : List α) (g : Bool) :
    ∀ (fuel : Nat) (st : JoinIter), WFPhase O P st → st.outer < O.length →
      fuelNeed O st < fuel →
      ∃ r, satisfyF O P g fuel st = some r ∧ InvIter O P r ∧ rem O P r = rem O P st ∧
        (g = true → r.outer = O.length → r.phase = Phase.inPattern 0) := by
  intro fuel
  induction fuel with
  | zero => intro st _ _ hf; exact absurd hf (Nat.not_lt_zero _)
  | succ n ih =>
    intro st hwf hlt hf
    obtain ⟨o, ph⟩ := st
    replace hlt : o < O.length := hlt
    cases ph with
    | inPattern p =>
      replace hwf : p ≤ P.length := hwf
      replace hf : 2 * (O.length - o) < n + 1 := hf
      by_cases hp : p = P.length
      · subst hp
        obtain ⟨r, h1, h2, h3, h4⟩ := ih ⟨o, Phase.inInner 0⟩ (Nat.zero_le _) hlt
          (show 2 * (O.length - o) - 1 < n by omega)
        refine ⟨r, by rw [satisfyF_pat_go]; exact h1, h2, ?_, h4⟩
        rw [h3, rem_inn P 0 hlt, rem_pat P P.length hlt]
        simp
      · refine ⟨⟨o, Phase.inPattern p⟩, satisfyF_pat_stop O g n o hp,
          invIter_pat.mpr ⟨by omega, fun _ => by omega⟩, rfl, ?_⟩
        intro _ hterm
        rw [JoinIter.outer_mk] at hterm
        omega
    | inInner i =>
      replace hwf : i ≤ (O.getD o []).length := hwf
      replace hf : 2 * (O.length - o) - 1 < n + 1 := hf
      by_cases hi : i = (O.getD o []).length
      · subst hi
        by_cases ho : o + 1 = O.length
        · refine ⟨_, satisfyF_inn_term P g n ho,
            ⟨by rw [JoinIter.outer_mk]; omega, fun hc => ?_⟩, ?_, ?_⟩
          · exact absurd (show o + 1 < O.length from hc) (by omega)
          · rw [rem_term O P _ (show ¬ (o + 1 < O.length) by omega),
              rem_inn P _ hlt, List.drop_length, ho, List.drop_length]
            rfl
          · intro hg _
            subst hg
            simp
        · have hlt' : o + 1 < O.length := by omega
          obtain ⟨r, h1, h2, h3, h4⟩ := ih ⟨o + 1, Phase.inPattern 0⟩ (Nat.zero_le _) hlt'
            (show 2 * (O.length - (o + 1)) < n by omega)
          refine ⟨r, by rw [satisfyF_inn_go P g n ho]; exact h1, h2, ?_, h4⟩
          rw [h3, rem_pat P 0 hlt', rem_inn P _ hlt, List.drop_length,
            drop_outer_cons hlt']
          simp [tailJoin, List.append_assoc]
      · refine ⟨⟨o, Phase.inInner i⟩, satisfyF_inn_stop P g n hi,
          invIter_inn.mpr ⟨by omega, fun _ => by omega⟩, rfl, ?_⟩
        intro _ hterm
        rw [JoinIter.outer_mk] at hterm
        omega

/-- The total satisfy agrees with any successful fuel-limited run. -/
theorem satisfy_eq_of {O : List (List α)} {P : List α} {g : Bool} {st r : JoinIter}
    {n : Nat} (h : satisfyF O P g n st = some r) (hn : n ≤ 2 * O.length + 2) :
    satisfy O P g st = r := by
  unfold satisfy
  rw [satisfyF_mono h hn]
  rfl

/-- The fuel needed by satisfy is bounded by twice the outer length. -/
theorem fuelNeed_le (O : List (List α)) (st : JoinIter) :
    fuelNeed O st ≤ 2 * O.length := by
  obtain ⟨o, ph⟩ := st
  cases ph with
  | inPattern p => show 2 * (O.length - o) ≤ 2 * O.length; omega
  | inInner i => show 2 * (O.length - o) - 1 ≤ 2 * O.length; omega

/-- Packaged behavior of the total satisfy on well-formed non-terminal
states. -/
theorem satisfy_spec (O : List (List α)) (P : List α) (g : Bool) (st : JoinIter)
    (hwf : WFPhase O P st) (hlt : st.outer < O.length) :
    InvIter O P (satisfy O P g st) ∧ rem O P (satisfy O P g st) = rem O P st ∧
      (g = true → (satisfy O P g st).outer = O.length →
        (satisfy O P g st).phase = Phase.inPattern 0) := by
  obtain ⟨r, h1, h2, h3, h4⟩ :=
    satisfyF_spec O P g (fuelNeed O st + 1) st hwf hlt (Nat.lt_succ_self _)
  have he : satisfy O P g st = r :=
    satisfy_eq_of h1 (by have := fuelNeed_le O st; omega)
  rw [he]
  exact ⟨h2, h3, h4⟩

/-- One forward step from an invariant non-terminal state reads the head of
the remaining sequence and leaves the tail. -/
theorem step_spec (O : List (List α)) (P : List α) (g : Bool) (st : JoinIter)
    (hinv : InvIter O P st) (hlt : st.outer < O.length) :
    ∃ a, deref O P st = some a ∧ rem O P st = a :: rem O P (next O P g st) ∧
      InvIter O P (next O P g st) ∧
      (g = true → (next O P g st).outer = O.length →
        (next O P g st).phase = Phase.inPattern 0) := by
  obtain ⟨o, ph⟩ := st
  replace hlt : o < O.length := hlt
  cases ph with
  | inPattern p =>
    have hp : p < P.length := hinv.2 hlt
    have hs := satisfy_spec O P g ⟨o, Phase.inPattern (p + 1)⟩
      (show p + 1 ≤ P.length by omega) hlt
    refine ⟨P[p], List.getElem?_eq_getElem hp, ?_, hs.1, hs.2.2⟩
    rw [rem_pat P p hlt,
      show rem O P (next O P g ⟨o, Phase.inPattern p⟩) =
        rem O P ⟨o, Phase.inPattern (p + 1)⟩ from hs.2.1,
      rem_pat P (p + 1) hlt, List.drop_eq_getElem_cons hp]
    simp only [List.cons_append]
  | inInner i =>
    have hi : i < (O.getD o []).length := hinv.2 hlt
    have hs := satisfy_spec O P g ⟨o, Phase.inInner (i + 1)⟩
      (show i + 1 ≤ (O.getD o []).length by omega) hlt
    refine ⟨(O.getD o [])[i], List.getElem?_eq_getElem hi, ?_, hs.1, hs.2.2⟩
    rw [rem_inn P i hlt,
      show rem O P (next O P g ⟨o, Phase.inInner i⟩) =
        rem O P ⟨o, Phase.inInner (i + 1)⟩ from hs.2.1,
      rem_inn P (i + 1) hlt, List.drop_eq_getElem_cons hi]
    simp only [List.cons_append]

/-- With enough fuel, the forward traversal from an invariant state produces
exactly the remaining element sequence. -/
theorem traverseF_eq_rem (O : List (List α)) (P : List α) (g : Bool) :
    ∀ (fuel : Nat) (st : JoinIter), InvIter O P st → (rem O P st).length < fuel →
      traverseF O P g fuel st = rem O P st := by
  intro fuel
  induction fuel with
  | zero => intro st _ h; exact absurd h (Nat.not_lt_zero _)
  | succ n ih =>
    intro st hinv hlen
    by_cases hterm : st.outer = O.length
    · rw [rem_term O P st (by omega)]
      simp only [traverseF, if_pos hterm]
    · have hlt : st.outer < O.length := by have := hinv.1; omega
      obtain ⟨a, hd, hr, hinv', _⟩ := step_spec O P g st hinv hlt
      have hu : traverseF O P g (n + 1) st = a :: traverseF O P g n (next O P g st) := by
        simp only [traverseF, if_neg hterm, hd]
      rw [hu, hr,
        ih (next O P g st) hinv' (by rw [hr] at hlen; simp at hlen; omega)]

/-- Full traversal of the view equals the concatenation stated by the
specification. -/
theorem joinTraversal_eq (O : List (List α)) (P : List α) (g : Bool) :
    joinTraversal O P g = joinWithSpec P O := by
  unfold joinTraversal
  cases O with
  | nil => simp [mkIter, tailJoin, traverseF, joinWithSpec]
  | cons x xs =>
    have hlt : 0 < (x :: xs).length := Nat.succ_pos _
    have hne : (0 : Nat) ≠ (x :: xs).length := by simp
    rw [show mkIter (x :: xs) P g 0 = satisfy (x :: xs) P g ⟨0, Phase.inInner 0⟩ by
      simp only [mkIter]; rw [if_neg hne]]
    have hs := satisfy_spec (x :: xs) P g ⟨0, Phase.inInner 0⟩ (Nat.zero_le _) hlt
    have hrem : rem (x :: xs) P ⟨0, Phase.inInner 0⟩ = x ++ tailJoin P xs := by
      rw [rem_inn P 0 hlt]
      simp [List.getD]
    rw [traverseF_eq_rem (x :: xs) P g _ _ hs.1 ?_, hs.2.1, hrem]
    · simp [joinWithSpec]
    · rw [hs.2.1, hrem]
      simp [tailJoin]
      omega

/-- Unfold lemma: the backward-skip loop stops on a pattern iterator not at
the pattern begin. -/
theorem prevLoopF_pat_stop {q : Nat} (O : List (List α)) (P : List α) (n o : Nat)
    (hq : q ≠ 0) :
    prevLoopF O P (n + 1) ⟨o, Phase.inPattern q⟩ = some ⟨o, Phase.inPattern q⟩ := by
  simp [prevLoopF, hq]

/-- Unfold lemma: the backward-skip loop moves over an outer boundary when
the pattern iterator is at the pattern begin. -/
theorem prevLoopF_pat_go (O : List (List α)) (P : List α) (n o : Nat) :
    prevLoopF O P (n + 1) ⟨o, Phase.inPattern 0⟩ =
      prevLoopF O P n ⟨o - 1, Phase.inInner (O.getD (o - 1) []).length⟩ := by
  simp [prevLoopF]

/-- Unfold lemma: the backward-skip loop stops on an inner iterator not at
the inner begin. -/
theorem prevLoopF_inn_stop {i : Nat} (O : List (List α)) (P : List α) (n o : Nat)
    (hi : i ≠ 0) :
    prevLoopF O P (n + 1) ⟨o, Phase.inInner i⟩ = some ⟨o, Phase.inInner i⟩ := by
  simp [prevLoopF, hi]

/-- Unfold lemma: the backward-skip loop switches to the pattern end when
the inner iterator is at the inner begin. -/
theorem prevLoopF_inn_go (O : List (List α)) (P : List α) (n o : Nat) :
    prevLoopF O P (n + 1) ⟨o, Phase.inInner 0⟩ =
      prevLoopF O P n ⟨o, Phase.inPattern P.length⟩ := by
  simp [prevLoopF]

/-- More fuel never changes a result the backward-skip loop already
produced. -/
theorem prevLoopF_mono {O : List (List α)} {P : List α} :
    ∀ {n m : Nat} {st r : JoinIter}, prevLoopF O P n st = some r → n ≤ m →
      prevLoopF O P m st = some r := by
  intro n
  induction n with
  | zero => intro m st r h _; simp [prevLoopF] at h
  | succ k ih =>
    intro m st r h hle
    obtain ⟨m', rfl⟩ : ∃ m', m = m' + 1 := ⟨m - 1, by omega⟩
    obtain ⟨o, ph⟩ := st
    cases ph with
    | inPattern q =>
      by_cases hq : q = 0
      · subst hq
        rw [prevLoopF_pat_go] at h
        rw [prevLoopF_pat_go]
        exact ih h (by omega)
      · rw [prevLoopF_pat_stop O P k o hq] at h
        rw [prevLoopF_pat_stop O P m' o hq]
        exact h
    | inInner i =>
      by_cases hi : i = 0
      · subst hi
        rw [prevLoopF_inn_go] at h
        rw [prevLoopF_inn_go]
        exact ih h (by omega)
      · rw [prevLoopF_inn_stop O P k o hi] at h
        rw [prevLoopF_inn_stop O P m' o hi]
        exact h

/-- A successful satisfy run from a state whose pattern iterator is not at
the pattern end returns that state unchanged. -/
theorem satisfyF_pat_stop_inv {O : List (List α)} {P : List α} {g : Bool}
    {n o p : Nat} {r : JoinIter} (hp : p ≠ P.length)
    (h : satisfyF O P g n ⟨o, Phase.inPattern p⟩ = some r) :
    r = ⟨o, Phase.inPattern p⟩ := by
  cases n with
  | zero => simp [satisfyF] at h
  | succ m =>
    rw [satisfyF_pat_stop O g m o hp] at h
    exact (Option.some.inj h).symm

/-- A successful satisfy run from a state whose inner iterator is not at the
inner end returns that state unchanged. -/
theorem satisfyF_inn_stop_inv {O : List (List α)} {P : List α} {g : Bool}
    {n o i : Nat} {r : JoinIter} (hi : i ≠ (O.getD o []).length)
    (h : satisfyF O P g n ⟨o, Phase.inInner i⟩ = some r) :
    r = ⟨o, Phase.inInner i⟩ := by
  cases n with
  | zero => simp [satisfyF] at h
  | succ m =>
    rw [satisfyF_inn_stop P g m hi] at h
    exact (Option.some.inj h).symm

/-- The pre-step of operator-- does nothing away from the outer end. -/
theorem preStep_id {O : List (List α)} {st : JoinIter} (h : st.outer ≠ O.length) :
    preStep O st = st := by
  simp [preStep, h]

/-- The pre-step of operator-- at the outer end moves to the end of the last
inner range. -/
theorem preStep_term {O : List (List α)} {o : Nat} (ph : Phase) (h : o = O.length) :
    preStep O ⟨o, ph⟩ = ⟨o - 1, Phase.inInner (O.getD (o - 1) []).length⟩ := by
  simp [preStep, h]

/-- Central inversion lemma: when satisfy runs forward from a state that
has just exhausted the inner range at outer position o (skipping empty
segments, possibly all the way to the outer end), the backward-skip loop of
operator--, started from the state satisfy produced (after the outer-end
pre-step), walks back exactly to that exhaustion point and then behaves as
if it had been started there. -/
theorem backtrack_spec {O : List (List α)} {P : List α} :
    ∀ {n o : Nat} {r : JoinIter}, o < O.length →
      satisfyF O P true n (exhState O o) = some r →
      ∀ {fuel : Nat} {res : JoinIter}, prevLoopF O P fuel (exhState O o) = some res →
        prevLoopF O P (n + fuel) (preStep O r) = some res := by
  intro n
  induction n using Nat.strong_induction_on with
  | _ n ih =>
  intro o r hlt h fuel res hres
  cases n with
  | zero => simp [satisfyF] at h
  | succ k =>
    by_cases ho : o + 1 = O.length
    · rw [show exhState O o = (⟨o, Phase.inInner (O.getD o []).length⟩ : JoinIter) from rfl,
        satisfyF_inn_term P true k ho] at h
      obtain rfl : r = (⟨o + 1, Phase.inPattern 0⟩ : JoinIter) := (Option.some.inj h).symm
      rw [preStep_term _ ho, show o + 1 - 1 = o by omega]
      exact prevLoopF_mono hres (by omega)
    · rw [show exhState O o = (⟨o, Phase.inInner (O.getD o []).length⟩ : JoinIter) from rfl,
        satisfyF_inn_go P true k ho] at h
      by_cases hP : P.length = 0
      · cases k with
        | zero => simp [satisfyF] at h
        | succ k' =>
          rw [show (⟨o + 1, Phase.inPattern 0⟩ : JoinIter) =
              ⟨o + 1, Phase.inPattern P.length⟩ by rw [hP],
            satisfyF_pat_go] at h
          by_cases hO1 : (O.getD (o + 1) []).length = 0
          · rw [show (⟨o + 1, Phase.inInner 0⟩ : JoinIter) = exhState O (o + 1) by
              rw [exhState, hO1]] at h
            have hlt1 : o + 1 < O.length := by omega
            have hstep : prevLoopF O P (fuel + 2) (exhState O (o + 1)) = some res := by
              rw [show exhState O (o + 1) =
                  (⟨o + 1, Phase.inInner (O.getD (o + 1) []).length⟩ : JoinIter) from rfl,
                hO1,
                show fuel + 2 = (fuel + 1) + 1 by omega,
                prevLoopF_inn_go,
                show (⟨o + 1, Phase.inPattern P.length⟩ : JoinIter) =
                  ⟨o + 1, Phase.inPattern 0⟩ by rw [hP],
                prevLoopF_pat_go,
                show o + 1 - 1 = o by omega]
              exact hres
            have hih := ih k' (by omega) hlt1 h hstep
            rw [show k' + 1 + 1 + fuel = k' + (fuel + 2) by omega]
            exact hih
          · obtain rfl : r = (⟨o + 1, Phase.inInner 0⟩ : JoinIter) :=
              satisfyF_inn_stop_inv (by omega) h
            rw [preStep_id (show (o : Nat) + 1 ≠ O.length from ho)]
            have hstep : prevLoopF O P (fuel + 2) ⟨o + 1, Phase.inInner 0⟩ = some res := by
              rw [show fuel + 2 = (fuel + 1) + 1 by omega,
                prevLoopF_inn_go,
                show (⟨o + 1, Phase.inPattern P.length⟩ : JoinIter) =
                  ⟨o + 1, Phase.inPattern 0⟩ by rw [hP],
                prevLoopF_pat_go,
                show o + 1 - 1 = o by omega]
              exact hres
            exact prevLoopF_mono hstep (by omega)
      · obtain rfl : r = (⟨o + 1, Phase.inPattern 0⟩ : JoinIter) :=
          satisfyF_pat_stop_inv (by omega) h
        rw [preStep_id (show (o : Nat) + 1 ≠ O.length from ho)]
        have hstep : prevLoopF O P (fuel + 1) ⟨o + 1, Phase.inPattern 0⟩ = some res := by
          rw [prevLoopF_pat_go, show o + 1 - 1 = o by omega]
          exact hres
        exact prevLoopF_mono hstep (by omega)

/-- Exact fuel needed by satisfy from an exhausted-inner state. -/
theorem fuelNeed_exh (O : List (List α)) (o : Nat) :
    fuelNeed O (exhState O o) = 2 * (O.length - o) - 1 := rfl

/-- The total operator-- agrees with any successful fuel-limited run of its
backward-skip loop. -/
theorem prev_eq_of {O : List (List α)} {P : List α} {st res : JoinIter} {n : Nat}
    (h : prevLoopF O P n (preStep O st) = some res) (hn : n ≤ 2 * O.length + 2) :
    prev O P st = decPhase res := by
  unfold prev
  rw [prevLoopF_mono h hn]
  rfl

/-- Stepping backward undoes stepping forward: from any invariant
non-terminal position of the glvalue case, operator-- applied to the result
of operator++ returns the original position. -/
theorem prev_next_inv (O : List (List α)) (P : List α) (st : JoinIter)
    (hinv : InvIter O P st) (hlt : st.outer < O.length) :
    prev O P (next O P true st) = st := by
  obtain ⟨o, ph⟩ := st
  replace hlt : o < O.length := hlt
  have hone : o ≠ O.length := by omega
  cases ph with
  | inPattern p =>
    have hp : p < P.length := hinv.2 hlt
    have hnext : next O P true ⟨o, Phase.inPattern p⟩ =
        satisfy O P true ⟨o, Phase.inPattern (p + 1)⟩ := rfl
    by_cases hp1 : p + 1 = P.length
    · by_cases hO0 : (O.getD o []).length = 0
      · obtain ⟨r, h1, _, _, _⟩ := satisfyF_spec O P true
          (fuelNeed O (exhState O o) + 1) (exhState O o) (le_refl _) hlt
          (Nat.lt_succ_self _)
        have heq : satisfyF O P true (fuelNeed O (exhState O o) + 2)
            ⟨o, Phase.inPattern (p + 1)⟩ = some r := by
          rw [show fuelNeed O (exhState O o) + 2 =
              (fuelNeed O (exhState O o) + 1) + 1 by omega,
            show (⟨o, Phase.inPattern (p + 1)⟩ : JoinIter) =
              ⟨o, Phase.inPattern P.length⟩ by rw [hp1],
            satisfyF_pat_go,
            show (⟨o, Phase.inInner 0⟩ : JoinIter) = exhState O o by
              rw [exhState, hO0]]
          exact h1
        have hsat := satisfy_eq_of heq
          (by have := fuelNeed_exh O o; omega)
        have hres : prevLoopF O P 2 (exhState O o) =
            some ⟨o, Phase.inPattern P.length⟩ := by
          rw [show exhState O o =
              (⟨o, Phase.inInner (O.getD o []).length⟩ : JoinIter) from rfl, hO0,
            show (2 : Nat) = 1 + 1 from rfl, prevLoopF_inn_go]
          exact prevLoopF_pat_stop O P 0 o (by omega)
        have hback := backtrack_spec hlt h1 hres
        have hle : fuelNeed O (exhState O o) + 1 + 2 ≤ 2 * O.length + 2 := by
          have := fuelNeed_exh O o
          omega
        rw [hnext, hsat, prev_eq_of hback hle]
        show (⟨o, Phase.inPattern (P.length - 1)⟩ : JoinIter) = _
        rw [show P.length - 1 = p by omega]
      · have heq : satisfyF O P true 3 ⟨o, Phase.inPattern (p + 1)⟩ =
            some ⟨o, Phase.inInner 0⟩ := by
          rw [show (3 : Nat) = 2 + 1 from rfl,
            show (⟨o, Phase.inPattern (p + 1)⟩ : JoinIter) =
              ⟨o, Phase.inPattern P.length⟩ by rw [hp1],
            satisfyF_pat_go]
          exact satisfyF_inn_stop P true 1 (by omega)
        have hsat := satisfy_eq_of heq (by omega)
        have hpre : prevLoopF O P 2 (preStep O ⟨o, Phase.inInner 0⟩) =
            some ⟨o, Phase.inPattern P.length⟩ := by
          rw [preStep_id hone, show (2 : Nat) = 1 + 1 from rfl, prevLoopF_inn_go]
          exact prevLoopF_pat_stop O P 0 o (by omega)
        rw [hnext, hsat, prev_eq_of hpre (by omega)]
        show (⟨o, Phase.inPattern (P.length - 1)⟩ : JoinIter) = _
        rw [show P.length - 1 = p by omega]
    · have heq : satisfyF O P true 1 ⟨o, Phase.inPattern (p + 1)⟩ =
          some ⟨o, Phase.inPattern (p + 1)⟩ := satisfyF_pat_stop O true 0 o hp1
      have hsat := satisfy_eq_of heq (by omega)
      have hpre : prevLoopF O P 1 (preStep O ⟨o, Phase.inPattern (p + 1)⟩) =
          some ⟨o, Phase.inPattern (p + 1)⟩ := by
        rw [preStep_id hone]
        exact prevLoopF_pat_stop O P 0 o (by omega)
      rw [hnext, hsat, prev_eq_of hpre (by omega)]
      show (⟨o, Phase.inPattern (p + 1 - 1)⟩ : JoinIter) = _
      rw [show p + 1 - 1 = p by omega]
  | inInner i =>
    have hi : i < (O.getD o []).length := hinv.2 hlt
    have hnext : next O P true ⟨o, Phase.inInner i⟩ =
        satisfy O P true ⟨o, Phase.inInner (i + 1)⟩ := rfl
    by_cases hi1 : i + 1 = (O.getD o []).length
    · obtain ⟨r, h1, _, _, _⟩ := satisfyF_spec O P true
        (fuelNeed O (exhState O o) + 1) (exhState O o) (le_refl _) hlt
        (Nat.lt_succ_self _)
      have heq : satisfyF O P true (fuelNeed O (exhState O o) + 1)
          ⟨o, Phase.inInner (i + 1)⟩ = some r := by
        rw [show (⟨o, Phase.inInner (i + 1)⟩ : JoinIter) = exhState O o by
          rw [exhState, hi1]]
        exact h1
      have hsat := satisfy_eq_of heq
        (by have := fuelNeed_exh O o; omega)
      have hres : prevLoopF O P 1 (exhState O o) = some (exhState O o) := by
        rw [show exhState O o =
            (⟨o, Phase.inInner (O.getD o []).length⟩ : JoinIter) from rfl]
        exact prevLoopF_inn_stop O P 0 o (by omega)
      have hback := backtrack_spec hlt h1 hres
      have hle : fuelNeed O (exhState O o) + 1 + 1 ≤ 2 * O.length + 2 := by
        have := fuelNeed_exh O o
        omega
      rw [hnext, hsat, prev_eq_of hback hle]
      show (⟨o, Phase.inInner ((O.getD o []).length - 1)⟩ : JoinIter) = _
      rw [show (O.getD o []).length - 1 = i by omega]
    · have heq : satisfyF O P true 1 ⟨o, Phase.inInner (i + 1)⟩ =
          some ⟨o, Phase.inInner (i + 1)⟩ := satisfyF_inn_stop P true 0 hi1
      have hsat := satisfy_eq_of heq (by omega)
      have hpre : prevLoopF O P 1 (preStep O ⟨o, Phase.inInner (i + 1)⟩) =
          some ⟨o, Phase.inInner (i + 1)⟩ := by
        rw [preStep_id hone]
        exact prevLoopF_inn_stop O P 0 o (by omega)
      rw [hnext, hsat, prev_eq_of hpre (by omega)]
      show (⟨o, Phase.inInner (i + 1 - 1)⟩ : JoinIter) = _
      rw [show i + 1 - 1 = i by omega]

/-- Eta expansion of an iterator state. -/
theorem JoinIter.eq_mk (st : JoinIter) : st = ⟨st.outer, st.phase⟩ := rfl

/-- A state with a non-empty remaining sequence is not at the outer end. -/
theorem outer_lt_of_rem_ne (O : List (List α)) (P : List α) {st : JoinIter}
    (h : rem O P st ≠ []) : st.outer < O.length := by
  by_contra hc
  exact h (rem_term O P st hc)

/-- Invariant, remaining sequence, and canonical terminal representation
along the forward orbit from begin, in the glvalue case. -/
theorem fwdIter_spec (O : List (List α)) (P : List α) :
    ∀ k, k ≤ (joinWithSpec P O).length →
      InvIter O P (fwdIter O P true k) ∧
      rem O P (fwdIter O P true k) = (joinWithSpec P O).drop k ∧
      ((fwdIter O P true k).outer = O.length →
        (fwdIter O P true k).phase = Phase.inPattern 0) := by
  intro k
  induction k with
  | zero =>
    intro _
    cases O with
    | nil =>
      have h0 : fwdIter ([] : List (List α)) P true 0 = ⟨0, Phase.inPattern 0⟩ := by
        simp [fwdIter, mkIter]
      rw [h0]
      refine ⟨⟨by simp, fun hc => absurd hc (by simp)⟩, ?_, fun _ => rfl⟩
      rw [rem_term _ P _ (by simp)]
      simp [joinWithSpec]
    | cons x xs =>
      have hlt : 0 < (x :: xs).length := Nat.succ_pos _
      have h0 : fwdIter (x :: xs) P true 0 =
          satisfy (x :: xs) P true ⟨0, Phase.inInner 0⟩ := by
        simp [fwdIter, mkIter]
      have hs := satisfy_spec (x :: xs) P true ⟨0, Phase.inInner 0⟩ (Nat.zero_le _) hlt
      have hrem : rem (x :: xs) P ⟨0, Phase.inInner 0⟩ = joinWithSpec P (x :: xs) := by
        rw [rem_inn P 0 hlt]
        simp [List.getD, joinWithSpec]
      rw [h0]
      exact ⟨hs.1, by rw [hs.2.1, hrem, List.drop_zero], hs.2.2 rfl⟩
  | succ k ih =>
    intro hk1
    obtain ⟨hinv, hrem, _⟩ := ih (by omega)
    have hk' : k < (joinWithSpec P O).length := by omega
    have hne : rem O P (fwdIter O P true k) ≠ [] := by
      rw [hrem]
      simp [List.drop_eq_nil_iff]
      omega
    have hlt := outer_lt_of_rem_ne O P hne
    obtain ⟨a, hd, hr, hinv', hterm'⟩ := step_spec O P true _ hinv hlt
    refine ⟨hinv', ?_, fun h => hterm' rfl h⟩
    rw [hrem, List.drop_eq_getElem_cons hk'] at hr
    injection hr with h1 h2
    exact h2.symm

/-- Exhausting the forward orbit reaches exactly the end iterator. -/
theorem fwdIter_last (O : List (List α)) (P : List α) :
    fwdIter O P true (joinWithSpec P O).length = mkIter O P true O.length := by
  obtain ⟨hinv, hrem, hphase⟩ := fwdIter_spec O P (joinWithSpec P O).length (le_refl _)
  rw [List.drop_length] at hrem
  have hterm : (fwdIter O P true (joinWithSpec P O).length).outer = O.length := by
    by_contra hc
    have hlt : (fwdIter O P true (joinWithSpec P O).length).outer < O.length := by
      have := hinv.1
      omega
    obtain ⟨a, _, hr, _, _⟩ := step_spec O P true _ hinv hlt
    rw [hrem] at hr
    exact List.noConfusion hr
  rw [JoinIter.eq_mk (fwdIter O P true (joinWithSpec P O).length), hterm,
    hphase hterm]
  simp [mkIter]

/-- Stepping backward j times from the iterator reached after m forward
steps visits, in order, the elements at positions m-1 down to m-j of the
flattened sequence. -/
theorem backListF_spec (O : List (List α)) (P : List α) :
    ∀ (j m : Nat), j ≤ m → m ≤ (joinWithSpec P O).length →
      backListF O P j (fwdIter O P true m) =
        (((joinWithSpec P O).take m).drop (m - j)).reverse.map some := by
  intro j
  induction j with
  | zero =>
    intro m _ hm
    rw [show backListF O P 0 (fwdIter O P true m) = [] from rfl]
    rw [List.drop_eq_nil_iff.mpr (by rw [List.length_take]; omega)]
    simp
  | succ j ih =>
    intro m hjm hm
    obtain ⟨m', rfl⟩ : ∃ m', m = m' + 1 := ⟨m - 1, by omega⟩
    obtain ⟨hinv, hrem, _⟩ := fwdIter_spec O P m' (by omega)
    have hm' : m' < (joinWithSpec P O).length := by omega
    have hne : rem O P (fwdIter O P true m') ≠ [] := by
      rw [hrem]
      simp [List.drop_eq_nil_iff]
      omega
    have hlt := outer_lt_of_rem_ne O P hne
    have hfwd : fwdIter O P true (m' + 1) = next O P true (fwdIter O P true m') := rfl
    have hprev : prev O P (fwdIter O P true (m' + 1)) = fwdIter O P true m' := by
      rw [hfwd]
      exact prev_next_inv O P _ hinv hlt
    obtain ⟨a, hd, hr, _, _⟩ := step_spec O P true _ hinv hlt
    have ha : a = (joinWithSpec P O)[m'] := by
      rw [hrem, List.drop_eq_getElem_cons hm'] at hr
      injection hr with h1 _
      exact h1.symm
    rw [show backListF O P (j + 1) (fwdIter O P true (m' + 1)) =
        deref O P (prev O P (fwdIter O P true (m' + 1))) ::
          backListF O P j (prev O P (fwdIter O P true (m' + 1))) from rfl,
      hprev, hd, ha, ih m' (by omega) (by omega)]
    rw [show m' + 1 - (j + 1) = m' - j by omega,
      List.take_succ, List.getElem?_eq_getElem hm']
    rw [List.drop_append_eq_append_drop,
      show m' - j - ((joinWithSpec P O).take m').length = 0 by
        rw [List.length_take]; omega]
    simp

/-- A successful findOcc result is an occurrence. -/
theorem findOcc_occursAt [DecidableEq α] :
    ∀ {l P : List α} {i : Nat}, findOcc P l = some i → occursAt P l i := by
  intro l
  induction l with
  | nil =>
    intro P i h
    by_cases hP : P = []
    · rw [findOcc, if_pos hP] at h
      injection h with h
      subst h
      subst hP
      rfl
    · rw [findOcc, if_neg hP] at h
      exact absurd h (by simp)
  | cons a l ihl =>
    intro P i h
    by_cases hp : (a :: l).take P.length = P
    · rw [findOcc, if_pos hp] at h
      injection h with h
      subst h
      exact hp
    · rw [findOcc, if_neg hp] at h
      cases hfo : findOcc P l with
      | none => rw [hfo] at h; exact absurd h (by simp)
      | some j =>
        rw [hfo] at h
        have hsome : some (j + 1) = some i := h
        injection hsome with hsome
        subst hsome
        have hj := ihl hfo
        unfold occursAt at hj ⊢
        rw [List.drop_succ_cons]
        exact hj

/-- findOcc returns the leftmost occurrence. -/
theorem findOcc_eq_some [DecidableEq α] :
    ∀ {l P : List α} {i : Nat}, occursAt P l i →
      (∀ j, j < i → ¬ occursAt P l j) → findOcc P l = some i := by
  intro l
  induction l with
  | nil =>
    intro P i hi hmin
    have hP : P = [] := by
      unfold occursAt at hi
      simpa using hi.symm
    have h0 : occursAt P [] 0 := by rw [hP]; rfl
    obtain rfl : i = 0 := by
      by_contra hne
      exact hmin 0 (by omega) h0
    rw [findOcc, if_pos hP]
  | cons a l ihl =>
    intro P i hi hmin
    cases i with
    | zero =>
      have hi0 : (a :: l).take P.length = P := hi
      rw [findOcc, if_pos hi0]
    | succ j =>
      have hne : ¬ ((a :: l).take P.length = P) := hmin 0 (by omega)
      have hj : occursAt P l j := by
        unfold occursAt at hi
        rw [List.drop_succ_cons] at hi
        exact hi
      have hmin' : ∀ j', j' < j → ¬ occursAt P l j' := by
        intro j' hj' hocc
        refine hmin (j' + 1) (by omega) ?_
        unfold occursAt at hocc ⊢
        rw [List.drop_succ_cons]
        exact hocc
      rw [findOcc, if_neg hne, ihl hj hmin']
      rfl

/-- The bounded boolean check noOccIn captures absence of occurrences at
every position. -/
theorem noOccIn_iff [DecidableEq α] (P l : List α) (hP : P ≠ []) :
    noOccIn P l = true ↔ ∀ i, ¬ occursAt P l i := by
  unfold noOccIn
  rw [List.all_eq_true]
  constructor
  · intro h i hocc
    by_cases hi : i < l.length + 1
    · have := h i (List.mem_range.mpr hi)
      simp at this
      exact this hocc
    · unfold occursAt at hocc
      rw [List.drop_eq_nil_iff.mpr (by omega)] at hocc
      simp at hocc
      exact hP hocc
  · intro h i _
    simp
    exact h i

/-- Splitting the flattened result on the separator recovers the outer list
when every occurrence of the separator lies at a separator position. -/
theorem splitOnSeqF_join [DecidableEq α] (P : List α) (hP : P ≠ []) :
    ∀ (fuel : Nat) (O : List (List α)), O ≠ [] →
      (∀ i, occursAt P (joinWithSpec P O) i → i ∈ sepPositions P O) →
      (joinWithSpec P O).length < fuel →
      splitOnSeqF P fuel (joinWithSpec P O) = O := by
  have hPlen : 0 < P.length := List.length_pos.mpr hP
  intro fuel
  induction fuel with
  | zero => intro O _ _ h; exact absurd h (Nat.not_lt_zero _)
  | succ n ih =>
    intro O hO hseps hlen
    obtain ⟨x, xs, rfl⟩ : ∃ x xs, O = x :: xs := by
      cases O with
      | nil => exact absurd rfl hO
      | cons x xs => exact ⟨x, xs, rfl⟩
    cases xs with
    | nil =>
      have hno : findOcc P (joinWithSpec P [x]) = none := by
        cases hfo : findOcc P (joinWithSpec P [x]) with
        | none => rfl
        | some i =>
          have hocc := findOcc_occursAt hfo
          have := hseps i hocc
          simp [sepPositions] at this
      simp only [splitOnSeqF]
      rw [hno]
      simp [joinWithSpec, tailJoin]
    | cons y ys =>
      have hjoin : joinWithSpec P (x :: y :: ys) =
          x ++ P ++ joinWithSpec P (y :: ys) := by
        simp [joinWithSpec, tailJoin, List.append_assoc]
      have hocc0 : occursAt P (joinWithSpec P (x :: y :: ys)) x.length := by
        unfold occursAt
        rw [hjoin, List.append_assoc, List.drop_left, List.take_left]
      have hmin : ∀ j, j < x.length →
          ¬ occursAt P (joinWithSpec P (x :: y :: ys)) j := by
        intro j hj hocc
        have hmem := hseps j hocc
        simp [sepPositions] at hmem
        rcases hmem with h1 | ⟨i, _, h2⟩
        · omega
        · omega
      have hfo := findOcc_eq_some hocc0 hmin
      simp only [splitOnSeqF]
      rw [hfo]
      have hred : (match some x.length with
          | none => [joinWithSpec P (x :: y :: ys)]
          | some i =>
            (joinWithSpec P (x :: y :: ys)).take i ::
              splitOnSeqF P n ((joinWithSpec P (x :: y :: ys)).drop (i + P.length))) =
          (joinWithSpec P (x :: y :: ys)).take x.length ::
            splitOnSeqF P n
              ((joinWithSpec P (x :: y :: ys)).drop (x.length + P.length)) := rfl
      rw [hred]
      have htake : (joinWithSpec P (x :: y :: ys)).take x.length = x := by
        rw [hjoin, List.append_assoc, List.take_left]
      have hdrop : (joinWithSpec P (x :: y :: ys)).drop (x.length + P.length) =
          joinWithSpec P (y :: ys) := by
        rw [hjoin]
        exact List.drop_left' (by simp)
      rw [htake, hdrop]
      have hseps' : ∀ i, occursAt P (joinWithSpec P (y :: ys)) i →
          i ∈ sepPositions P (y :: ys) := by
        intro i hi
        have hocc : occursAt P (joinWithSpec P (x :: y :: ys))
            (x.length + P.length + i) := by
          unfold occursAt at hi ⊢
          rw [← List.drop_drop, hdrop]
          exact hi
        have hmem := hseps _ hocc
        simp [sepPositions] at hmem
        rcases hmem with h1 | h2
        · omega
        · exact h2
      have hlen' : (joinWithSpec P (y :: ys)).length < n := by
        rw [hjoin] at hlen
        simp [List.length_append] at hlen
        omega
      rw [ih (y :: ys) (by simp) hseps' hlen']

/-- C1: fully traversing the view produced by join_with(O, P) forward
yields exactly concatenate(O[0], P, O[1], P, ..., P, O[n-1]): one occurrence
of the pattern between every pair of consecutive outer elements, also when
neighboring inner sequences are empty, and the empty sequence for empty O.
The flag g covers both the glvalue case and the value-synthesizing case. -/
theorem join_with_flatten_correct (O : List (List α)) (P : List α) (g : Bool) :
    joinTraversal O P g = joinWithSpec P O :=
  joinTraversal_eq O P g

/-- C2: after construction at any outer position and after every forward
step from an invariant non-terminal position the cursor never rests on an
exhausted phase (every transition runs through satisfy, which is the last
call of the constructor and of operator++ by definition of mkIter and next),
so dereference at a non-terminal position always reads a valid element. -/
theorem join_cursor_satisfy_invariant (O : List (List α)) (P : List α) (g : Bool) :
    (∀ o, o ≤ O.length → InvIter O P (mkIter O P g o)) ∧
    (∀ st, InvIter O P st → st.outer < O.length → InvIter O P (next O P g st)) ∧
    (∀ st, InvIter O P st → st.outer < O.length → (deref O P st).isSome = true) := by
  refine ⟨?_, ?_, ?_⟩
  · intro o ho
    by_cases h : o = O.length
    · subst h
      rw [show mkIter O P g O.length = ⟨O.length, Phase.inPattern 0⟩ by simp [mkIter]]
      exact ⟨le_refl _, fun hc =>
        absurd (show O.length < O.length from hc) (lt_irrefl _)⟩
    · have hlt : o < O.length := by omega
      rw [show mkIter O P g o = satisfy O P g ⟨o, Phase.inInner 0⟩ by simp [mkIter, h]]
      exact (satisfy_spec O P g ⟨o, Phase.inInner 0⟩ (Nat.zero_le _) hlt).1
  · intro st hinv hlt
    obtain ⟨a, _, _, hinv', _⟩ := step_spec O P g st hinv hlt
    exact hinv'
  · intro st hinv hlt
    obtain ⟨a, hd, _, _, _⟩ := step_spec O P g st hinv hlt
    rw [hd]
    rfl

/-- Witness for C2 at a concrete view with an empty middle inner range. -/
theorem join_cursor_satisfy_invariant_witness :
    InvIter [[1, 2], [], [3]] [9, 9] (mkIter [[1, 2], [], [3]] [9, 9] true 0) ∧
    (deref [[1, 2], [], [3]] [9, 9] (mkIter [[1, 2], [], [3]] [9, 9] true 0)).isSome
      = true :=
  ⟨(join_cursor_satisfy_invariant [[1, 2], [], [3]] [9, 9] true).1 0 (by decide),
   (join_cursor_satisfy_invariant [[1, 2], [], [3]] [9, 9] true).2.2 _
     ((join_cursor_satisfy_invariant [[1, 2], [], [3]] [9, 9] true).1 0 (by decide))
     (by decide)⟩

/-- C3 counterexample: for O = [[1]] and P = [0], one forward step from
begin reaches the outer end, and the resulting variant holds the pattern
alternative (a value-initialized pattern cursor), not the claimed in-inner
state. -/
theorem join_end_phase_cex :
    (next [[1]] [0] true (mkIter [[1]] [0] true 0)).outer = 1 ∧
    Phase.isInnerSide (next [[1]] [0] true (mkIter [[1]] [0] true 0)).phase
      = false := by
  decide

/-- C3 amended: in the reference case, whenever the outer position reaches
the outer end (by construction from the outer end position or by satisfy
advancing past the last inner sequence) the variant is forced to the
designated pattern alternative holding a value-initialized pattern cursor
(modelled as position 0), and this canonical end representation makes any
cursor at the outer end compare equal to the end cursor. -/
theorem join_end_canonical_rep (O : List (List α)) (P : List α) :
    mkIter O P true O.length = ⟨O.length, Phase.inPattern 0⟩ ∧
    (∀ st, WFPhase O P st → st.outer < O.length →
      (satisfy O P true st).outer = O.length →
      (satisfy O P true st).phase = Phase.inPattern 0 ∧
      iterEq (satisfy O P true st) (mkIter O P true O.length) = true) := by
  constructor
  · simp [mkIter]
  · intro st hwf hlt hterm
    have hs := satisfy_spec O P true st hwf hlt
    have hphase := hs.2.2 rfl hterm
    refine ⟨hphase, ?_⟩
    rw [show mkIter O P true O.length = ⟨O.length, Phase.inPattern 0⟩ by
      simp [mkIter]]
    simp [iterEq, hterm, hphase]

/-- Witness for the amended C3: satisfy from the exhausted inner range of
O = [[1]] lands in the canonical end representation. -/
theorem join_end_canonical_rep_witness :
    (satisfy [[1]] [0] true ⟨0, Phase.inInner 1⟩).phase = Phase.inPattern 0 ∧
    iterEq (satisfy [[1]] [0] true ⟨0, Phase.inInner 1⟩)
      (mkIter [[1]] [0] true 1) = true :=
  (join_end_canonical_rep [[1]] [0]).2 ⟨0, Phase.inInner 1⟩
    (by unfold WFPhase; decide) (by decide) (by decide)

/-- C4: with bidirectional capability (the glvalue case; outer, inner and
pattern ranges of the list model are bidirectional common ranges), each
backward step undoes the forward step that reached its position, and
stepping backward from the end iterator visits exactly the reverse of the
sequence visited forward. -/
theorem join_bidirectional_roundtrip (O : List (List α)) (P : List α) :
    (∀ k, k < (joinTraversal O P true).length →
      prev O P (fwdIter O P true (k + 1)) = fwdIter O P true k) ∧
    backListF O P (joinTraversal O P true).length (mkIter O P true O.length) =
      (joinTraversal O P true).reverse.map some := by
  have hJ : joinTraversal O P true = joinWithSpec P O := joinTraversal_eq O P true
  rw [hJ]
  constructor
  · intro k hk
    obtain ⟨hinv, hrem, _⟩ := fwdIter_spec O P k (by omega)
    have hne : rem O P (fwdIter O P true k) ≠ [] := by
      rw [hrem]
      simp [List.drop_eq_nil_iff]
      omega
    have hlt := outer_lt_of_rem_ne O P hne
    exact prev_next_inv O P _ hinv hlt
  · rw [← fwdIter_last O P,
      backListF_spec O P (joinWithSpec P O).length (joinWithSpec P O).length
        (le_refl _) (le_refl _),
      Nat.sub_self, List.take_length, List.drop_zero]

/-- Witness for C4 at a concrete two-element view. -/
theorem join_bidirectional_roundtrip_witness :
    0 < (joinTraversal [[1], [2]] [0] true).length ∧
    prev [[1], [2]] [0] (fwdIter [[1], [2]] [0] true 1) =
      fwdIter [[1], [2]] [0] true 0 :=
  ⟨by decide, (join_bidirectional_roundtrip [[1], [2]] [0]).1 0 (by decide)⟩

/-- C5 counterexample: O = [[1], [1]] and P = [1, 1] satisfy the stated
precondition (P is non-empty and no inner element contains P as a
contiguous block), yet the flattened result [1, 1, 1, 1] contains an
occurrence of P straddling a boundary, and splitting does not recover O. -/
theorem split_join_roundtrip_cex :
    ([1, 1] : List ℕ) ≠ [] ∧
    ([[1], [1]] : List (List ℕ)).all (fun l => noOccIn [1, 1] l) = true ∧
    splitOnSeq [1, 1] (joinTraversal [[1], [1]] [1, 1] true) ≠ [[1], [1]] := by
  decide

/-- C5 amended: for non-empty O and non-empty P such that every occurrence
of P in the flattened result lies at one of the inserted separator
positions (the original precondition is too weak because an occurrence of P
can straddle a boundary of the flattened result), splitting the flattened
traversal on P recovers O exactly. -/
theorem split_join_roundtrip [DecidableEq α] (O : List (List α)) (P : List α)
    (hO : O ≠ []) (hP : P ≠ [])
    (hsep : ∀ i, i < (joinTraversal O P true).length →
      occursAt P (joinTraversal O P true) i → i ∈ sepPositions P O) :
    splitOnSeq P (joinTraversal O P true) = O := by
  rw [joinTraversal_eq O P true] at hsep ⊢
  have hsep' : ∀ i, occursAt P (joinWithSpec P O) i → i ∈ sepPositions P O := by
    intro i hi
    by_cases hlen : i < (joinWithSpec P O).length
    · exact hsep i hlen hi
    · exfalso
      unfold occursAt at hi
      rw [List.drop_eq_nil_iff.mpr (by omega)] at hi
      simp at hi
      exact hP hi
  unfold splitOnSeq
  exact splitOnSeqF_join P hP _ O hO hsep' (Nat.lt_succ_self _)

/-- Witness for the amended C5 at a concrete separated view. -/
theorem split_join_roundtrip_witness :
    (([[1, 2], [3]] : List (List ℕ)) ≠ [] ∧ ([0] : List ℕ) ≠ []) ∧
    splitOnSeq [0] (joinTraversal [[1, 2], [3]] [0] true) = [[1, 2], [3]] :=
  ⟨⟨by decide, by decide⟩,
   split_join_roundtrip [[1, 2], [3]] [0] (by decide) (by decide) (by decide)⟩

/-- C6: a cursor compares equal to the sentinel exactly when its outer
position equals the captured outer end, and the phase of the cursor has no
influence on this comparison. -/
theorem sentinel_compare_outer_only (O : List (List α)) (st : JoinIter) :
    (sentinelEq st (mkSentinel O) = true ↔ st.outer = O.length) ∧
    (∀ ph : Phase, sentinelEq ⟨st.outer, ph⟩ (mkSentinel O) =
      sentinelEq st (mkSentinel O)) := by
  constructor
  · simp [sentinelEq, mkSentinel]
  · intro ph
    rfl

/-- C7: equality between two cursors is offered only when ref_is_glvalue
holds (together with equality comparability of the outer and inner
iterators, per the requires clause), and it holds exactly when the outer
positions are equal and the variants (alternative and held position) are
equal. -/
theorem iterator_equality_ref_case :
    (∀ refIsGlvalue eqOuter eqInner : Bool,
      iterEqDefined refIsGlvalue eqOuter eqInner = true → refIsGlvalue = true) ∧
    (∀ x y : JoinIter, iterEq x y = true ↔ x.outer = y.outer ∧ x.phase = y.phase) := by
  constructor
  · intro r eo ei h
    simp [iterEqDefined] at h
    exact h.1.1
  · intro x y
    simp [iterEq]

/-- Witness for C7. -/
theorem iterator_equality_ref_case_witness :
    iterEqDefined true true true = true ∧ (true : Bool) = true ∧
    iterEq ⟨2, Phase.inPattern 0⟩ ⟨2, Phase.inPattern 0⟩ = true :=
  ⟨by decide, iterator_equality_ref_case.1 true true true (by decide),
   (iterator_equality_ref_case.2 ⟨2, Phase.inPattern 0⟩ ⟨2, Phase.inPattern 0⟩).mpr
     ⟨rfl, rfl⟩⟩

/-- C8: under the constraint of the view that the pattern is a forward
range, the iterator_concept of the source resolves exactly to the four-case
cascade stated by the specification (the source may omit the pattern from
the forward-range test precisely because the constraint already grants
it). -/
theorem iterator_concept_cascade (refIsGlvalue : Bool)
    (outer inner pat : RangeTraits) (hpat : pat.fwd = true) :
    iteratorConcept refIsGlvalue outer inner pat =
      iteratorConceptSpec refIsGlvalue outer inner pat := by
  obtain ⟨f1, b1, c1⟩ := outer
  obtain ⟨f2, b2, c2⟩ := inner
  obtain ⟨f3, b3, c3⟩ := pat
  revert hpat
  revert refIsGlvalue f1 b1 c1 f2 b2 c2 f3 b3 c3
  decide

/-- Witness for C8. -/
theorem iterator_concept_cascade_witness :
    (⟨true, false, false⟩ : RangeTraits).fwd = true ∧
    iteratorConcept true ⟨true, true, true⟩ ⟨true, true, true⟩
        ⟨true, false, false⟩ =
      iteratorConceptSpec true ⟨true, true, true⟩ ⟨true, true, true⟩
        ⟨true, false, false⟩ :=
  ⟨by decide,
   iterator_concept_cascade true ⟨true, true, true⟩ ⟨true, true, true⟩
     ⟨true, false, false⟩ (by decide)⟩

/-- C9: the constructor taking one separator element wraps it into the
length-one pattern produced by views::single, so the resulting view
traverses identically to the view built from the explicit one-element
pattern. -/
theorem single_element_ctor_equiv (O : List (List α)) (e : α) (g : Bool) :
    viewTraversal (mkJoinWithViewSingle O e) g =
      viewTraversal (mkJoinWithView O [e]) g := rfl

/-- C10: for every finite outer sequence, satisfy terminates within two
loop iterations per remaining outer position plus one: with that much fuel
it produces a result, and any larger fuel returns the same result, so
neither satisfy nor a forward step (which runs satisfy on a state one
position further) can loop forever. -/
theorem satisfy_terminates (O : List (List α)) (P : List α) (g : Bool)
    (st : JoinIter) (hwf : WFPhase O P st) (hlt : st.outer < O.length) :
    (satisfyF O P g (2 * (O.length - st.outer) + 1) st).isSome = true ∧
    (∀ m, 2 * (O.length - st.outer) + 1 ≤ m →
      satisfyF O P g m st = satisfyF O P g (2 * (O.length - st.outer) + 1) st) := by
  have hneed : fuelNeed O st < 2 * (O.length - st.outer) + 1 := by
    obtain ⟨o, ph⟩ := st
    cases ph with
    | inPattern p =>
      show 2 * (O.length - o) < 2 * (O.length - o) + 1
      omega
    | inInner i =>
      show 2 * (O.length - o) - 1 < 2 * (O.length - o) + 1
      omega
  obtain ⟨r, h1, _, _, _⟩ := satisfyF_spec O P g _ st hwf hlt hneed
  refine ⟨by rw [h1]; rfl, ?_⟩
  intro m hm
  rw [h1, satisfyF_mono h1 hm]

/-- Witness for C10 on a view with empty pattern and empty trailing inner
ranges, where satisfy has to skip the most segments. -/
theorem satisfy_terminates_witness :
    (satisfyF [[1], [], []] [] true 7 ⟨0, Phase.inInner 1⟩).isSome = true :=
  (satisfy_terminates [[1], [], []] [] true ⟨0, Phase.inInner 1⟩
    (by unfold WFPhase; decide) (by decide)).1

end SeqanJoinWith
